import Mathlib

/-!
Verification development for the gitEase workflow engine
(`gitease_Agent.py`).  Python strings are modelled as `List Char`,
the loaded YAML configuration as an inductive tree, external command
execution as an oracle `Nat → Bool` giving the exit status of the
n-th command run, and user input (`input()`) as a stream
`Nat → List Char` giving the n-th line typed by the user.
-/

/-- Python strings are modelled as lists of characters. -/
abbrev Str := List Char

/-- Turn a Lean string literal into the `Str` model. -/
def chars (s : String) : Str := s.data

/-- Python `str.strip()` membership test for whitespace characters
(the ASCII whitespace Python strips; exotic unicode whitespace does not
occur in the repository). -/
def isPySpace (c : Char) : Bool :=
  c == ' ' || c == '\t' || c == '\n' || c == '\r' || c == '\x0b' || c == '\x0c'

/-- Python `str.strip()`. -/
def trimL (s : Str) : Str :=
  ((s.dropWhile isPySpace).reverse.dropWhile isPySpace).reverse

/-- Python `str.lower()` (characterwise, as used on the one-letter
confirmation answer). -/
def lowerL (s : Str) : Str := s.map Char.toLower

/-- Python `str.split(sep)` for a one-character separator: splits at every
occurrence, keeping empty fields, so `"a::b"` gives `["a", "", "b"]` and
`""` gives `[""]`. -/
def splitCh (sep : Char) : Str → List Str
  | [] => [[]]
  | c :: rest =>
    if c = sep then [] :: splitCh sep rest
    else
      match splitCh sep rest with
      | g :: gs => (c :: g) :: gs
      | [] => [[c]]

/-- Boolean prefix test on character lists (`pre` is a prefix of `s`). -/
def startsWithL : Str → Str → Bool
  | [], _ => true
  | _ :: _, [] => false
  | p :: ps, c :: cs => p == c && startsWithL ps cs

/-- Model of `command.split(':')[1].strip()` as used for the
`hooks:<name>` and `git merge_to_branch:<target>` macro markers.  The
callers only evaluate it on strings that contain a colon, so the
out-of-bounds `IndexError` case cannot arise and is defaulted to `[]`. -/
def colonField1 (s : Str) : Str :=
  trimL ((splitCh ':' s).getD 1 [])

/-- The YAML configuration tree produced by `yaml.safe_load`.  Scalars
are strings, integers, booleans or null; collections are sequences and
(string-keyed) mappings.  Floats do not occur in the claims and are
omitted. -/
inductive Yaml where
  | str (s : Str)
  | int (n : Int)
  | bool (b : Bool)
  | null
  | list (xs : List Yaml)
  | map (entries : List (Str × Yaml))

/-- Python dictionary lookup on a mapping node. -/
def ylookup : List (Str × Yaml) → Str → Option Yaml
  | [], _ => none
  | (k, v) :: rest, key => if k = key then some v else ylookup rest key

/-- The two exception classes relevant to `substitute_variables`:
`value[key]` raises `KeyError` on a mapping without the key, and
`TypeError` when `value` is not subscriptable by a string (a list, a
string, a number, a boolean or `None`). -/
inductive PyErr where
  | keyError
  | typeError
deriving DecidableEq

/-- The loop `for key in keys: value = value[key]` of
`substitute_variables`, walking the configuration tree along a dotted
key path. -/
def walkPath : Yaml → List Str → Except PyErr Yaml
  | v, [] => .ok v
  | .map m, k :: ks =>
    match ylookup m k with
    | some v => walkPath v ks
    | none => .error .keyError
  | _, _ :: _ => .error .typeError

/-- The key path of a placeholder: `placeholder.strip().split('.')`. -/
def keyPath (ph : Str) : List Str := splitCh '.' (trimL ph)

/-- A piece of a template as seen by the regex scan
`re.findall(r"\x7b\x7b(.*?)\x7d\x7d", s)`: either a single literal
character or a complete placeholder `{{p}}` with inner text `p`. -/
inductive Chunk where
  | ch (c : Char)
  | ph (p : Str)
deriving DecidableEq

/-- Left-to-right scan of a template, mirroring the Python regex
`\x7b\x7b(.*?)\x7d\x7d`: an opening `{{` is matched with the nearest
following `}}` (non-greedy), the inner text may contain anything except
a newline (`.` does not match `\n`), and if no closer is found before a
newline or the end of the string the scan resumes after that point (a
match can never start inside the aborted region because the
accumulated inner text contains no `}}` and any inner `{{` would meet
the same newline or end first).  The first argument is `none` while
outside a placeholder and `some acc` (inner text accumulated in
reverse) after an unmatched `{{`. -/
def scanA : Option Str → Str → List Chunk
  | none, [] => []
  | none, [c] => [Chunk.ch c]
  | none, c :: c2 :: rest =>
    if c = '{' ∧ c2 = '{' then scanA (some []) rest
    else Chunk.ch c :: scanA none (c2 :: rest)
  | some acc, [] => ('{' :: '{' :: acc.reverse).map Chunk.ch
  | some acc, [c] =>
    if c = '\n' then ('{' :: '{' :: acc.reverse ++ ['\n']).map Chunk.ch
    else ('{' :: '{' :: (c :: acc).reverse).map Chunk.ch
  | some acc, c :: c2 :: rest =>
    if c = '}' ∧ c2 = '}' then Chunk.ph acc.reverse :: scanA none rest
    else if c = '\n' then
      ('{' :: '{' :: acc.reverse ++ ['\n']).map Chunk.ch ++ scanA none (c2 :: rest)
    else scanA (some (c :: acc)) (c2 :: rest)

/-- The placeholder texts of a chunk list, in order. -/
def phNames (cs : List Chunk) : List Str :=
  cs.filterMap fun ch => match ch with | .ph p => some p | .ch _ => none

/-- Model of `re.findall(r"\x7b\x7b(.*?)\x7d\x7d", command_string)`:
the inner texts of all placeholders, left to right, non-overlapping. -/
def findall (s : Str) : List Str := phNames (scanA none s)

/-- The literal text `{{p}}` of a placeholder, the first argument of
`command_string.replace(...)`. -/
def phPattern (p : Str) : Str := '{' :: '{' :: (p ++ ['}', '}'])

/-- Fuel-driven core of Python `str.replace`: replaces every
non-overlapping occurrence of the pattern `p :: ps`, left to right,
continuing after the replacement text.  The fuel only serves to make
the recursion structural; `replaceAll` supplies enough fuel for it
never to run out. -/
def replaceFuel (p : Char) (ps rep : Str) : Nat → Str → Str
  | 0, s => s
  | _ + 1, [] => []
  | f + 1, c :: rest =>
    if startsWithL (p :: ps) (c :: rest) then
      rep ++ replaceFuel p ps rep f (rest.drop ps.length)
    else c :: replaceFuel p ps rep f rest

/-- Python `s.replace(pat, rep)`.  The empty-pattern case never arises:
every pattern used is of the form `{{...}}`. -/
def replaceAll (pat rep s : Str) : Str :=
  match pat with
  | [] => s
  | p :: ps => replaceFuel p ps rep s.length s

/-- Outcome of `substitute_variables`: a fully substituted string, a
clean `return None` (after reporting a missing variable or an empty
interactive version), or an uncaught `TypeError` escaping the
function. -/
inductive SubstOutcome where
  | ok (result : Str)
  | failMissing (varName : Str)
  | failEmptyVersion
  | typeError
deriving DecidableEq

/-- The `for placeholder in placeholders` loop of
`substitute_variables`.  Only `KeyError` is caught; a successful walk
must end at a string scalar, otherwise `str.replace` raises
`TypeError`.  The reserved placeholder `version` (exact, unstripped
text) prompts the user: the n-th prompt reads `inputs n` and strips it;
an empty answer makes the whole resolution fail.  The `Nat` threaded
through counts the `input()` calls made so far. -/
def substLoop (cfg : Yaml) (inputs : Nat → Str) :
    List Str → Str → Nat → SubstOutcome × Nat
  | [], s, c => (.ok s, c)
  | ph :: rest, s, c =>
    match walkPath cfg (keyPath ph) with
    | .ok (.str v) => substLoop cfg inputs rest (replaceAll (phPattern ph) v s) c
    | .ok _ => (.typeError, c)
    | .error .typeError => (.typeError, c)
    | .error .keyError =>
      if ph = chars "version" then
        if trimL (inputs c) = [] then (.failEmptyVersion, c + 1)
        else
          substLoop cfg inputs rest
            (replaceAll (phPattern (chars "version")) (trimL (inputs c)) s) (c + 1)
      else (.failMissing ph, c)

/-- `substitute_variables(command_string, config)`: find all
placeholders once, then process them in order. -/
def substitute_variables (cfg : Yaml) (inputs : Nat → Str) (tpl : Str)
    (c : Nat) : SubstOutcome × Nat :=
  substLoop cfg inputs (findall tpl) tpl c

/-- One declared workflow step, a YAML record read through
`step.get('description', 'No description')` and `step.get('run', '')`;
absent fields are modelled as `none`. -/
structure StepDef where
  description : Option Str
  run : Option Str
deriving DecidableEq

/-- `step.get('description', 'No description')`. -/
def descOf (s : StepDef) : Str := s.description.getD (chars "No description")

/-- `step.get('run', '')`. -/
def runOf (s : StepDef) : Str := s.run.getD []

/-- One entry of the `plan` list built in the dry-run phase of
`execute_workflow`. -/
structure PlannedStep where
  description : Str
  command : Str
deriving DecidableEq

/-- Outcome of the dry-run phase: a full plan together with the number
of `input()` calls consumed, a clean early `return` after a reported
substitution failure, or an uncaught `TypeError` escaping
`execute_workflow`. -/
inductive PlanOutcome where
  | ok (plan : List PlannedStep) (c : Nat)
  | abort
  | crashed
deriving DecidableEq

/-- The dry-run loop of `execute_workflow` (lines building `plan`):
substitute every step in declared order, stopping the whole phase at the
first failure. -/
def planSteps (cfg : Yaml) (inputs : Nat → Str) :
    List StepDef → Nat → PlanOutcome
  | [], c => .ok [] c
  | s :: rest, c =>
    match substitute_variables cfg inputs (runOf s) c with
    | (.ok cmd, c1) =>
      match planSteps cfg inputs rest c1 with
      | .ok plan c2 => .ok (⟨descOf s, cmd⟩ :: plan) c2
      | o => o
    | (.failMissing _, _) => .abort
    | (.failEmptyVersion, _) => .abort
    | (.typeError, _) => .crashed

/-- Console events observable during a run.  Progress headers of the
plan preview are omitted; the events named here are the ones the claims
speak about.  `stepAnnounce i n d` is the `--- Step i/n: d ---` line,
`runCmd` a command handed to `run_command`, `info` the safe-merge
notice, `stepFailed` the `Step failed. Aborting workflow.` error,
`stepSuccess` the per-step success line, and `finishedBanner` the final
`--- Workflow finished. ---` header. -/
inductive Event where
  | stepAnnounce (i n : Nat) (desc : Str)
  | runCmd (cmd : Str)
  | info
  | stepSuccess
  | stepFailed
  | finishedBanner
  | workflowNotFound
  | cancelled
  | invalidInput
  | invalidChoice
deriving DecidableEq

/-- The loaded configuration.  The Python program keeps one YAML
dictionary; it is read through three disjoint views: the whole tree as
substitution namespace (`tree`), `config.get('workflows', {})`
(`workflows`, an insertion-ordered mapping from name to step list) and
`config.get('hooks', {})` (`hooks`, mapping a hook name to its raw
command strings).  The views are modelled as separate fields. -/
structure Config where
  tree : Yaml
  workflows : List (Str × List StepDef)
  hooks : List (Str × List Str)

/-- Association-list lookup for the `workflows` and `hooks` views. -/
def assocL {α : Type} : List (Str × α) → Str → Option α
  | [], _ => none
  | (k, v) :: rest, key => if k = key then some v else assocL rest key

/-- `run_command(cmd)`: echoes the command (the `runCmd` event) and
reports the external exit status, supplied by the oracle `env` at the
current command counter. -/
def runCommandE (env : Nat → Bool) (cmd : Str) (c : Nat) :
    Bool × List Event × Nat :=
  (env c, [Event.runCmd cmd], c + 1)

/-- Python `and` on two command invocations: the second runs only when
the first succeeded. -/
def andThen (first : Bool × List Event × Nat)
    (next : Nat → Bool × List Event × Nat) : Bool × List Event × Nat :=
  match first with
  | (true, ev, c) =>
    match next c with
    | (ok2, ev2, c2) => (ok2, ev ++ ev2, c2)
  | (false, ev, c) => (false, ev, c)

/-- The `for hook_cmd in hook_commands` loop: run each hook command in
order, stopping at the first failure. -/
def runHooks (env : Nat → Bool) : List Str → Nat → Bool × List Event × Nat
  | [], c => (true, [], c)
  | h :: rest, c =>
    match runCommandE env h c with
    | (true, ev, c1) =>
      match runHooks env rest c1 with
      | (ok2, ev2, c2) => (ok2, ev ++ ev2, c2)
    | (false, ev, c1) => (false, ev, c1)

/-- Execution of one planned step: hook macro, guarded-merge macro, or
plain command, classified by literal string prefix exactly as in the
source (`command.startswith("hooks:")` first, then
`command.startswith("git merge_to_branch:")`). -/
def execStep (env : Nat → Bool) (cfg : Config) (br : Str) (cmd : Str)
    (c : Nat) : Bool × List Event × Nat :=
  if startsWithL (chars "hooks:") cmd then
    runHooks env ((assocL cfg.hooks (colonField1 cmd)).getD []) c
  else if startsWithL (chars "git merge_to_branch:") cmd then
    match
      andThen (runCommandE env (chars "git checkout " ++ colonField1 cmd) c)
        (fun c1 =>
          andThen (runCommandE env (chars "git pull origin " ++ colonField1 cmd) c1)
            (fun c2 =>
              andThen (runCommandE env (chars "git merge " ++ br) c2)
                (fun c3 => runCommandE env (chars "git checkout " ++ br) c3)))
    with
    | (ok, ev, c4) => (ok, Event.info :: ev, c4)
  else runCommandE env cmd c

/-- The execution phase of `execute_workflow`: announce each step,
execute it, report success or failure, and `break` on the first
failure.  Returns the events emitted and the final command counter. -/
def execLoop (env : Nat → Bool) (cfg : Config) (br : Str) :
    List PlannedStep → Nat → Nat → Nat → List Event × Nat
  | [], _, _, c => ([], c)
  | s :: rest, i, n, c =>
    match execStep env cfg br s.command c with
    | (true, ev, c1) =>
      match execLoop env cfg br rest (i + 1) n c1 with
      | (evs, c2) =>
        (Event.stepAnnounce i n s.description :: (ev ++ Event.stepSuccess :: evs), c2)
    | (false, ev, c1) =>
      (Event.stepAnnounce i n s.description :: (ev ++ [Event.stepFailed]), c1)

/-- The index of the first failing step of a confirmed plan, defined by
the same sequential execution as `execLoop` (later outcomes may depend
on the commands already run, via the counter). -/
def firstFail (env : Nat → Bool) (cfg : Config) (br : Str) :
    List PlannedStep → Nat → Nat → Option Nat
  | [], _, _ => none
  | s :: rest, i, c =>
    match execStep env cfg br s.command c with
    | (true, _, c1) => firstFail env cfg br rest (i + 1) c1
    | (false, _, _) => some i

/-- A full confirmed run: the execution loop from step 1 with a fresh
command counter, followed unconditionally by the
`--- Workflow finished. ---` header printed after the loop. -/
def runPlan (env : Nat → Bool) (cfg : Config) (br : Str)
    (plan : List PlannedStep) : List Event :=
  (execLoop env cfg br plan 1 plan.length 0).1 ++ [Event.finishedBanner]

/-- `execute_workflow(workflow_name, config, current_branch)`.
Returns the observable events and whether an uncaught exception escaped
(`True` exactly when the dry-run phase raised `TypeError`).  A missing
or empty workflow (`if not workflow`) reports and returns; a failed
substitution returns after its error report; otherwise the plan is
previewed and the next `input()` line is the confirmation answer,
compared via `.lower() != 'y'`. -/
def execute_workflow (cfg : Config) (br : Str) (wfName : Str)
    (inputs : Nat → Str) (env : Nat → Bool) (c : Nat) : List Event × Bool :=
  match assocL cfg.workflows wfName with
  | none => ([Event.workflowNotFound], false)
  | some steps =>
    if steps = [] then ([Event.workflowNotFound], false)
    else
      match planSteps cfg.tree inputs steps c with
      | .crashed => ([], true)
      | .abort => ([], false)
      | .ok plan c1 =>
        if lowerL (inputs c1) = chars "y" then (runPlan env cfg br plan, false)
        else ([Event.cancelled], false)

/-- Python `int(s)` on the menu answer: optional surrounding
whitespace, an optional sign, then at least one ASCII digit; anything
else raises `ValueError` (`none`).  Digit-group underscores and
non-ASCII digits do not occur in the claims and are not modelled. -/
def digitsVal (ds : Str) : Option Nat :=
  if ds ≠ [] ∧ ds.all Char.isDigit then
    some (ds.foldl (fun acc c => acc * 10 + (c.toNat - 48)) 0)
  else none

/-- Python `int(choice_str)`. -/
def pyParseInt (s : Str) : Option Int :=
  match trimL s with
  | '-' :: ds => (digitsVal ds).map fun n => -(n : Int)
  | '+' :: ds => (digitsVal ds).map fun n => (n : Int)
  | ds => (digitsVal ds).map fun n => (n : Int)

/-- `main()`: exit status and events.  `load_config()` and
`get_current_branch()` are modelled by the two `Option` arguments
(`none` when they fail); `inputs 0` is the menu selection and the
remaining input stream is shared with `execute_workflow`.  A `None`
config or branch and an empty workflow list call `sys.exit(1)`; a
`ValueError` from `int()` or an out-of-range choice is reported and
`main` falls through, so the process exits 0; an uncaught `TypeError`
from planning terminates the interpreter with status 1. -/
def mainRun (cfgO : Option Config) (brO : Option Str) (inputs : Nat → Str)
    (env : Nat → Bool) : Nat × List Event :=
  match cfgO with
  | none => (1, [])
  | some cfg =>
    match brO with
    | none => (1, [])
    | some br =>
      let names := cfg.workflows.map Prod.fst
      if names = [] then (1, [])
      else
        match pyParseInt (inputs 0) with
        | none => (0, [Event.invalidInput])
        | some v =>
          if v - 1 < 0 then (0, [Event.invalidChoice])
          else
            match names.get? (v - 1).toNat with
            | some wfName =>
              match execute_workflow cfg br wfName inputs env 1 with
              | (evs, raised) => (if raised then 1 else 0, evs)
            | none => (0, [Event.invalidChoice])

/-! ## Helper lemmas on the string primitives -/

theorem splitCh_noSep {sep : Char} :
    ∀ {s : Str}, (∀ c ∈ s, c ≠ sep) → splitCh sep s = [s]
  | [], _ => rfl
  | c :: rest, h => by
    have hc : c ≠ sep := h c (List.mem_cons_self c rest)
    have ih := splitCh_noSep (s := rest) fun x hx => h x (List.mem_cons_of_mem c hx)
    simp [splitCh, hc, ih]

theorem colonField1_hooks (name : Str) (h1 : ∀ c ∈ name, c ≠ ':')
    (h2 : trimL name = name) :
    colonField1 (chars "hooks:" ++ name) = name := by
  have e : splitCh ':' (chars "hooks:" ++ name) =
      chars "hooks" :: splitCh ':' name := rfl
  simp [colonField1, e, splitCh_noSep h1, h2]

theorem colonField1_merge (t : Str) (h1 : ∀ c ∈ t, c ≠ ':')
    (h2 : trimL t = t) :
    colonField1 (chars "git merge_to_branch:" ++ t) = t := by
  have e : splitCh ':' (chars "git merge_to_branch:" ++ t) =
      chars "git merge_to_branch" :: splitCh ':' t := rfl
  simp [colonField1, e, splitCh_noSep h1, h2]

/-! ## C6: a hook macro whose name is absent is a vacuously
successful no-op -/

/-- C6: for a step `hooks:<name>` with `<name>` absent from the hooks
mapping, `execute_workflow` runs zero external commands for the step,
reports it successful, and carries on with the remaining steps. -/
theorem C6_hooks_absent :
    ∀ (env : Nat → Bool) (cfg : Config) (br name : Str) (c i n : Nat)
      (s : PlannedStep) (rest : List PlannedStep),
      (∀ ch ∈ name, ch ≠ ':') → trimL name = name →
      assocL cfg.hooks name = none →
      s.command = chars "hooks:" ++ name →
      execStep env cfg br s.command c = (true, [], c) ∧
      execLoop env cfg br (s :: rest) i n c =
        (Event.stepAnnounce i n s.description :: Event.stepSuccess ::
            (execLoop env cfg br rest (i + 1) n c).1,
          (execLoop env cfg br rest (i + 1) n c).2) := by
  intro env cfg br name c i n s rest h1 h2 h3 h4
  have hpre : startsWithL (chars "hooks:") (chars "hooks:" ++ name) = true := rfl
  have hstep : execStep env cfg br s.command c = (true, [], c) := by
    rw [h4]
    simp [execStep, hpre, colonField1_hooks name h1 h2, h3, runHooks]
  refine ⟨hstep, ?_⟩
  rcases hrest : execLoop env cfg br rest (i + 1) n c with ⟨evs, c2⟩
  simp [execLoop, hstep, hrest]

theorem C6_hooks_absent_witness :
    execStep (fun _ => true) ⟨.map [], [], [(chars "build", [chars "make"])]⟩
      (chars "main") (chars "hooks:lint") 0 = (true, [], 0) :=
  (C6_hooks_absent (fun _ => true)
    ⟨.map [], [], [(chars "build", [chars "make"])]⟩ (chars "main")
    (chars "lint") 0 1 1 ⟨chars "run lint hooks", chars "hooks:lint"⟩ []
    (by decide) (by decide) (by decide) rfl).1

/-! ## C2: the guarded-merge macro -/

/-- C2: a guarded-merge step `git merge_to_branch:<target>` with
current branch `br` runs exactly checkout target, pull origin target,
merge br, checkout br, in that order; after the first failing
sub-command no later sub-command (including the switch-back) runs, and
the step succeeds exactly when all four succeed. -/
theorem C2_guarded_merge :
    ∀ (env : Nat → Bool) (cfg : Config) (br t : Str) (c : Nat),
      (∀ ch ∈ t, ch ≠ ':') → trimL t = t →
      execStep env cfg br (chars "git merge_to_branch:" ++ t) c =
        (if env c = false then
          (false, [Event.info, Event.runCmd (chars "git checkout " ++ t)], c + 1)
        else if env (c + 1) = false then
          (false, [Event.info, Event.runCmd (chars "git checkout " ++ t),
            Event.runCmd (chars "git pull origin " ++ t)], c + 2)
        else if env (c + 2) = false then
          (false, [Event.info, Event.runCmd (chars "git checkout " ++ t),
            Event.runCmd (chars "git pull origin " ++ t),
            Event.runCmd (chars "git merge " ++ br)], c + 3)
        else
          (env (c + 3), [Event.info, Event.runCmd (chars "git checkout " ++ t),
            Event.runCmd (chars "git pull origin " ++ t),
            Event.runCmd (chars "git merge " ++ br),
            Event.runCmd (chars "git checkout " ++ br)], c + 4)) ∧
      ((execStep env cfg br (chars "git merge_to_branch:" ++ t) c).1 = true ↔
        env c = true ∧ env (c + 1) = true ∧ env (c + 2) = true ∧
          env (c + 3) = true) := by
  intro env cfg br t c h1 h2
  have hp1 : startsWithL (chars "hooks:")
      (chars "git merge_to_branch:" ++ t) = false := rfl
  have hp2 : startsWithL (chars "git merge_to_branch:")
      (chars "git merge_to_branch:" ++ t) = true := rfl
  have hf := colonField1_merge t h1 h2
  have hmain : execStep env cfg br (chars "git merge_to_branch:" ++ t) c =
      (if env c = false then
        (false, [Event.info, Event.runCmd (chars "git checkout " ++ t)], c + 1)
      else if env (c + 1) = false then
        (false, [Event.info, Event.runCmd (chars "git checkout " ++ t),
          Event.runCmd (chars "git pull origin " ++ t)], c + 2)
      else if env (c + 2) = false then
        (false, [Event.info, Event.runCmd (chars "git checkout " ++ t),
          Event.runCmd (chars "git pull origin " ++ t),
          Event.runCmd (chars "git merge " ++ br)], c + 3)
      else
        (env (c + 3), [Event.info, Event.runCmd (chars "git checkout " ++ t),
          Event.runCmd (chars "git pull origin " ++ t),
          Event.runCmd (chars "git merge " ++ br),
          Event.runCmd (chars "git checkout " ++ br)], c + 4)) := by
    cases h0 : env c <;> cases hA : env (c + 1) <;> cases hB : env (c + 2) <;>
      cases hC : env (c + 3) <;>
      simp [execStep, hp1, hp2, hf, andThen, runCommandE, h0, hA, hB, hC]
  refine ⟨hmain, ?_⟩
  rw [hmain]
  cases h0 : env c <;> cases hA : env (c + 1) <;> cases hB : env (c + 2) <;>
    cases hC : env (c + 3) <;> simp [h0, hA, hB, hC]

theorem C2_guarded_merge_witness :
    execStep (fun _ => true) ⟨.map [], [], []⟩ (chars "feature-x")
      (chars "git merge_to_branch:" ++ chars "production") 0 =
      (true, [Event.info, Event.runCmd (chars "git checkout production"),
        Event.runCmd (chars "git pull origin production"),
        Event.runCmd (chars "git merge feature-x"),
        Event.runCmd (chars "git checkout feature-x")], 4) := by
  have h := (C2_guarded_merge (fun _ => true) ⟨.map [], [], []⟩
    (chars "feature-x") (chars "production") 0 (by decide) (by decide)).1
  rw [h]
  decide

/-! ## C1 and C7: fail-fast execution and terminal reporting -/

/-- Events a single `execStep` can emit (commands and the merge
notice); step announcements and per-step verdicts come only from
`execLoop`. -/
def evPlain : Event → Bool
  | .runCmd _ => true
  | .info => true
  | _ => false

/-- Test for the announcement line of step `j`. -/
def isAnn (j : Nat) : Event → Bool
  | .stepAnnounce i _ _ => i == j
  | _ => false

/-- Step `j` was announced (attempted) somewhere in the event list. -/
def announced (evs : List Event) (j : Nat) : Bool := evs.any (isAnn j)

theorem evPlain_isAnn {e : Event} (h : evPlain e = true) (j : Nat) :
    isAnn j e = false := by
  cases e <;> simp_all [evPlain, isAnn]

theorem runHooks_plain (env : Nat → Bool) :
    ∀ (hs : List Str) (c : Nat) (e : Event),
      e ∈ (runHooks env hs c).2.1 → evPlain e = true := by
  intro hs
  induction hs with
  | nil => intro c e he; simp [runHooks] at he
  | cons h rest ih =>
    intro c e he
    rcases henv : env c with _ | _
    · simp [runHooks, runCommandE, henv] at he
      subst he; rfl
    · rcases hrest : runHooks env rest (c + 1) with ⟨ok2, ev2, c2⟩
      simp [runHooks, runCommandE, henv, hrest] at he
      rcases he with rfl | he
      · rfl
      · have := ih (c + 1) e
        rw [hrest] at this
        exact this he

theorem execStep_plain (env : Nat → Bool) (cfg : Config) (br : Str) :
    ∀ (cmd : Str) (c : Nat) (e : Event),
      e ∈ (execStep env cfg br cmd c).2.1 → evPlain e = true := by
  intro cmd c e he
  by_cases hh : startsWithL (chars "hooks:") cmd = true
  · rw [execStep, if_pos hh] at he
    exact runHooks_plain env _ c e he
  · by_cases hm : startsWithL (chars "git merge_to_branch:") cmd = true
    · rw [execStep, if_neg hh, if_pos hm] at he
      rcases h0 : env c <;> rcases hA : env (c + 1) <;>
        rcases hB : env (c + 2) <;> rcases hC : env (c + 3) <;>
        simp [andThen, runCommandE, h0, hA, hB, hC] at he <;>
        (rcases he with rfl | rfl | rfl | rfl | rfl <;> rfl)
    · rw [execStep, if_neg hh, if_neg hm] at he
      simp [runCommandE] at he
      subst he; rfl

theorem plain_not_announced {ev : List Event}
    (h : ∀ e ∈ ev, evPlain e = true) (j : Nat) : ev.any (isAnn j) = false := by
  rw [List.any_eq_false]
  intro e he
  simp [evPlain_isAnn (h e he) j]

theorem execLoop_firstFail_some (env : Nat → Bool) (cfg : Config) (br : Str) :
    ∀ (plan : List PlannedStep) (i n c k : Nat),
      firstFail env cfg br plan i c = some k →
      i ≤ k ∧ k < i + plan.length ∧
      ∃ pre, (execLoop env cfg br plan i n c).1 = pre ++ [Event.stepFailed] ∧
        ∀ j, announced pre j = true ↔ (i ≤ j ∧ j ≤ k) := by
  intro plan
  induction plan with
  | nil => intro i n c k h; simp [firstFail] at h
  | cons s rest ih =>
    intro i n c k h
    rcases hstep : execStep env cfg br s.command c with ⟨ok, ev, c1⟩
    have hplain : ∀ e ∈ ev, evPlain e = true := by
      intro e he
      have := execStep_plain env cfg br s.command c e
      rw [hstep] at this
      exact this he
    cases ok with
    | false =>
      simp only [firstFail, hstep, Option.some.injEq] at h
      subst h
      refine ⟨le_refl _, by simp only [List.length_cons]; omega,
        Event.stepAnnounce i n s.description :: ev, ?_, ?_⟩
      · simp only [execLoop, hstep]
        simp
      · intro j
        simp only [announced, List.any_cons, Bool.or_eq_true,
          plain_not_announced hplain j, Bool.or_false]
        simp [isAnn, Nat.beq_eq]
        omega
    | true =>
      simp only [firstFail, hstep] at h
      obtain ⟨h1, h2, pre', e', hiff⟩ := ih (i + 1) n c1 k h
      rcases hrest : execLoop env cfg br rest (i + 1) n c1 with ⟨evs, c2⟩
      rw [hrest] at e'
      simp only at e'
      refine ⟨by omega, by simp only [List.length_cons]; omega,
        Event.stepAnnounce i n s.description :: (ev ++ Event.stepSuccess :: pre'),
        ?_, ?_⟩
      · simp only [execLoop, hstep, hrest]
        simp [e']
      · intro j
        simp only [announced, List.any_cons, List.any_append, Bool.or_eq_true,
          plain_not_announced hplain j]
        have hj := hiff j
        simp only [announced] at hj
        constructor
        · rintro (ha | hb | hc | hd)
          · simp [isAnn, Nat.beq_eq] at ha; omega
          · exact absurd hb (by simp)
          · simp [isAnn] at hc
          · have := hj.mp hd; omega
        · intro hb
          by_cases hji : j = i
          · left; simp [isAnn, hji]
          · right; right; right
            exact hj.mpr ⟨by omega, by omega⟩

theorem execLoop_firstFail_none (env : Nat → Bool) (cfg : Config) (br : Str) :
    ∀ (plan : List PlannedStep) (i n c : Nat),
      firstFail env cfg br plan i c = none →
      Event.stepFailed ∉ (execLoop env cfg br plan i n c).1 := by
  intro plan
  induction plan with
  | nil => intro i n c _; simp [execLoop]
  | cons s rest ih =>
    intro i n c h
    rcases hstep : execStep env cfg br s.command c with ⟨ok, ev, c1⟩
    have hplain : ∀ e ∈ ev, evPlain e = true := by
      intro e he
      have := execStep_plain env cfg br s.command c e
      rw [hstep] at this
      exact this he
    cases ok with
    | false =>
      simp only [firstFail, hstep] at h
      exact Option.noConfusion h
    | true =>
      simp only [firstFail, hstep] at h
      rcases hrest : execLoop env cfg br rest (i + 1) n c1 with ⟨evs, c2⟩
      simp only [execLoop, hstep, hrest]
      have hx := ih (i + 1) n c1 h
      rw [hrest] at hx
      simp only at hx
      intro hmem
      rcases List.mem_cons.mp hmem with h1 | h2
      · exact Event.noConfusion h1
      · rcases List.mem_append.mp h2 with h3 | h4
        · have := hplain _ h3; simp [evPlain] at this
        · rcases List.mem_cons.mp h4 with h5 | h6
          · exact Event.noConfusion h5
          · exact hx h6

/-- C1: in a confirmed run whose first failing step is step k, exactly
steps 1..k are announced (no later step is attempted and no command of
a later step runs), and the run ends with the failure report right
after the events of step k. -/
theorem C1_fail_fast :
    ∀ (env : Nat → Bool) (cfg : Config) (br : Str) (plan : List PlannedStep)
      (k : Nat),
      firstFail env cfg br plan 1 0 = some k →
      1 ≤ k ∧ k ≤ plan.length ∧
      ∃ pre, runPlan env cfg br plan =
          pre ++ [Event.stepFailed, Event.finishedBanner] ∧
        ∀ j, announced pre j = true ↔ (1 ≤ j ∧ j ≤ k) := by
  intro env cfg br plan k h
  obtain ⟨h1, h2, pre, he, hiff⟩ :=
    execLoop_firstFail_some env cfg br plan 1 plan.length 0 k h
  refine ⟨h1, by omega, pre, ?_, hiff⟩
  rw [runPlan, he]
  simp

theorem C1_fail_fast_witness :
    ∃ pre, runPlan (fun n => n == 0) ⟨.map [], [], []⟩ (chars "b")
        [⟨chars "first", chars "c1"⟩, ⟨chars "second", chars "c2"⟩] =
        pre ++ [Event.stepFailed, Event.finishedBanner] ∧
      ∀ j, announced pre j = true ↔ (1 ≤ j ∧ j ≤ 2) :=
  (C1_fail_fast (fun n => n == 0) ⟨.map [], [], []⟩ (chars "b")
    [⟨chars "first", chars "c1"⟩, ⟨chars "second", chars "c2"⟩] 2
    (by decide)).2.2

/-- C7 counterexample: the claim says no run in which a step failed is
reported with the completion banner, but a failed one-step run still
ends with the `--- Workflow finished. ---` header: the banner is
printed unconditionally after the loop, right after the
`Step failed. Aborting workflow.` report. -/
theorem C7_terminal_states_cex :
    Event.stepFailed ∈
      runPlan (fun _ => false) ⟨.map [], [], []⟩ (chars "main")
        [⟨chars "d", chars "x"⟩] ∧
    (runPlan (fun _ => false) ⟨.map [], [], []⟩ (chars "main")
        [⟨chars "d", chars "x"⟩]).getLast? = some Event.finishedBanner := by
  decide

/-- C7 amended: every confirmed run ends with the
`--- Workflow finished. ---` header regardless of outcome; a run with
no failing step contains no failure report, and a run with a failing
step contains the failure report (in addition to the final header). -/
theorem C7_terminal_states :
    ∀ (env : Nat → Bool) (cfg : Config) (br : Str) (plan : List PlannedStep),
      ∃ evs, runPlan env cfg br plan = evs ++ [Event.finishedBanner] ∧
        (firstFail env cfg br plan 1 0 = none → Event.stepFailed ∉ evs) ∧
        (∀ k, firstFail env cfg br plan 1 0 = some k →
          Event.stepFailed ∈ evs) := by
  intro env cfg br plan
  refine ⟨(execLoop env cfg br plan 1 plan.length 0).1, rfl, ?_, ?_⟩
  · intro h
    exact execLoop_firstFail_none env cfg br plan 1 plan.length 0 h
  · intro k h
    obtain ⟨_, _, pre, he, _⟩ :=
      execLoop_firstFail_some env cfg br plan 1 plan.length 0 k h
    rw [he]
    simp

theorem C7_terminal_states_witness :
    ∃ evs, runPlan (fun _ => false) ⟨.map [], [], []⟩ (chars "main")
        [⟨chars "d", chars "x"⟩] = evs ++ [Event.finishedBanner] ∧
      Event.stepFailed ∈ evs := by
  obtain ⟨evs, he, _, hsome⟩ :=
    C7_terminal_states (fun _ => false) ⟨.map [], [], []⟩ (chars "main")
      [⟨chars "d", chars "x"⟩]
  exact ⟨evs, he, hsome 1 (by decide)⟩

/-! ## C4, C5, C10: variable resolution failures -/

/-- The placeholder path resolves to a string scalar. -/
def resolvesToStr (cfg : Yaml) (p : Str) : Prop :=
  ∃ v, walkPath cfg (keyPath p) = .ok (.str v)

/-- The placeholder is processed without stopping resolution: either it
resolves to a string, or it is the reserved `version` placeholder with
an absent path (and the interactive answer is non-empty). -/
def goodPh (cfg : Yaml) (p : Str) : Prop :=
  resolvesToStr cfg p ∨
    (p = chars "version" ∧ walkPath cfg (keyPath p) = .error .keyError)

theorem substLoop_skipStr (cfg : Yaml) (inputs : Nat → Str) :
    ∀ (pre post : List Str) (s : Str) (c : Nat),
      (∀ p ∈ pre, resolvesToStr cfg p) →
      ∃ s1, substLoop cfg inputs (pre ++ post) s c =
        substLoop cfg inputs post s1 c := by
  intro pre
  induction pre with
  | nil => intro post s c _; exact ⟨s, rfl⟩
  | cons p pre' ih =>
    intro post s c h
    obtain ⟨v, hv⟩ := h p (List.mem_cons_self p pre')
    have := ih post (replaceAll (phPattern p) v s) c
      fun q hq => h q (List.mem_cons_of_mem p hq)
    simpa [substLoop, hv] using this

theorem substLoop_skipGood (cfg : Yaml) (inputs : Nat → Str)
    (hinp : ∀ n, trimL (inputs n) ≠ []) :
    ∀ (pre post : List Str) (s : Str) (c : Nat),
      (∀ p ∈ pre, goodPh cfg p) →
      ∃ s1 c1, substLoop cfg inputs (pre ++ post) s c =
        substLoop cfg inputs post s1 c1 := by
  intro pre
  induction pre with
  | nil => intro post s c _; exact ⟨s, c, rfl⟩
  | cons p pre' ih =>
    intro post s c h
    rcases h p (List.mem_cons_self p pre') with ⟨v, hv⟩ | ⟨hp, hv⟩
    · have := ih post (replaceAll (phPattern p) v s) c
        fun q hq => h q (List.mem_cons_of_mem p hq)
      simpa [substLoop, hv] using this
    · subst hp
      have := ih post
        (replaceAll (phPattern (chars "version")) (trimL (inputs c)) s) (c + 1)
        fun q hq => h q (List.mem_cons_of_mem _ hq)
      simpa [substLoop, hv, hinp c] using this

/-- C4 counterexample: the template below contains the placeholder
`missing`, whose path is absent from the configuration (a `KeyError`)
and whose text is not `version`, so the claim demands a reported
resolution failure naming it; but the earlier placeholder `a.b`
traverses a list, so `substitute_variables` raises an uncaught
`TypeError` instead of returning any failure. -/
theorem C4_missing_variable_cex :
    walkPath (Yaml.map [(chars "a", Yaml.list [Yaml.str (chars "x")])])
        (keyPath (chars "missing")) = .error .keyError ∧
    chars "missing" ≠ chars "version" ∧
    chars "missing" ∈ findall (chars "\x7b\x7ba.b\x7d\x7d\x7b\x7bmissing\x7d\x7d") ∧
    substitute_variables (Yaml.map [(chars "a", Yaml.list [Yaml.str (chars "x")])])
        (fun _ => chars "1") (chars "\x7b\x7ba.b\x7d\x7d\x7b\x7bmissing\x7d\x7d") 0 =
      (.typeError, 0) :=
  ⟨rfl, by decide, by decide, by decide⟩

/-- C4 amended: if every placeholder before the offending one resolves
to a string or is an interactively supplied (non-empty) `version`, then
a placeholder with an absent path whose text is not `version` makes the
whole resolution fail with a report naming that variable, and no
(partially substituted) string is returned. -/
theorem C4_missing_variable :
    ∀ (cfg : Yaml) (inputs : Nat → Str) (tpl : Str) (c : Nat)
      (pre post : List Str) (ph : Str),
      (∀ n, trimL (inputs n) ≠ []) →
      findall tpl = pre ++ ph :: post →
      (∀ p ∈ pre, goodPh cfg p) →
      walkPath cfg (keyPath ph) = .error .keyError →
      ph ≠ chars "version" →
      ∃ c1, substitute_variables cfg inputs tpl c = (.failMissing ph, c1) := by
  intro cfg inputs tpl c pre post ph hinp hf hpre hw hv
  rw [substitute_variables, hf]
  obtain ⟨s1, c1, he⟩ := substLoop_skipGood cfg inputs hinp pre (ph :: post) tpl c hpre
  rw [he]
  exact ⟨c1, by simp [substLoop, hw, hv]⟩

theorem C4_missing_variable_witness :
    ∃ c1, substitute_variables (Yaml.map [(chars "x", Yaml.str (chars "1"))])
        (fun _ => chars "v") (chars "\x7b\x7bx\x7d\x7d \x7b\x7bmiss\x7d\x7d") 0 =
      (.failMissing (chars "miss"), c1) :=
  C4_missing_variable (Yaml.map [(chars "x", Yaml.str (chars "1"))])
    (fun _ => chars "v") (chars "\x7b\x7bx\x7d\x7d \x7b\x7bmiss\x7d\x7d") 0
    [chars "x"] [] (chars "miss")
    (by intro n; show trimL (chars "v") ≠ []; decide) (by decide)
    (fun p hp => by
      have : p = chars "x" := by simpa using hp
      subst this
      exact Or.inl ⟨chars "1", rfl⟩)
    rfl (by decide)

/-- C5 counterexample: the template below contains the placeholder
`version` with an absent path and a non-empty interactive answer is
available, so the claim demands a prompt and a substitution; but the
earlier missing placeholder `miss` makes resolution fail first: the
outcome reports `miss` and the input counter stays 0, so the user was
never prompted. -/
theorem C5_version_prompt_cex :
    chars "version" ∈ findall (chars "\x7b\x7bmiss\x7d\x7d \x7b\x7bversion\x7d\x7d") ∧
    walkPath (Yaml.map []) (keyPath (chars "version")) = .error .keyError ∧
    trimL (chars "2.0.0") ≠ [] ∧
    substitute_variables (Yaml.map []) (fun _ => chars "2.0.0")
        (chars "\x7b\x7bmiss\x7d\x7d \x7b\x7bversion\x7d\x7d") 0 =
      (.failMissing (chars "miss"), 0) :=
  ⟨by decide, rfl, by decide, by decide⟩

theorem substLoop_allGood (cfg : Yaml) (inputs : Nat → Str)
    (hinp : ∀ n, trimL (inputs n) ≠ []) :
    ∀ (ps : List Str), (∀ p ∈ ps, goodPh cfg p) →
      ∀ (s : Str) (c : Nat), ∃ result c1,
        substLoop cfg inputs ps s c = (.ok result, c1) ∧ c ≤ c1 := by
  intro ps
  induction ps with
  | nil => intro _ s c; exact ⟨s, c, rfl, le_refl c⟩
  | cons p rest ih =>
    intro h s c
    rcases h p (List.mem_cons_self p rest) with ⟨v, hv⟩ | ⟨hp, hv⟩
    · obtain ⟨result, c1, he, hc⟩ :=
        ih (fun q hq => h q (List.mem_cons_of_mem p hq))
          (replaceAll (phPattern p) v s) c
      exact ⟨result, c1, by simp only [substLoop, hv]; exact he, hc⟩
    · subst hp
      obtain ⟨result, c1, he, hc⟩ :=
        ih (fun q hq => h q (List.mem_cons_of_mem _ hq))
          (replaceAll (phPattern (chars "version")) (trimL (inputs c)) s) (c + 1)
      refine ⟨result, c1, ?_, by omega⟩
      have hstep : substLoop cfg inputs (chars "version" :: rest) s c =
          substLoop cfg inputs rest
            (replaceAll (phPattern (chars "version")) (trimL (inputs c)) s)
            (c + 1) := by
        simp [substLoop, hv, hinp c]
      rw [hstep]
      exact he

/-- C5 amended: for a template whose placeholders before the `version`
placeholder each resolve to a string and whose path for `version` is
absent, the resolver prompts the user: a non-empty stripped answer
replaces `{{version}}` in the current string and — the remaining
placeholders also resolving (or re-prompting `version`) — resolution
succeeds, consuming at least the one prompt; with `version` as the only
placeholder the result is exactly the template with the answer
substituted; an empty answer fails the whole resolution with no partial
substitution.  The last conjunct is the concrete scenario of the
claim. -/
theorem C5_version_prompt :
    (∀ (cfg : Yaml) (inputs : Nat → Str) (tpl : Str) (c : Nat)
      (pre post : List Str),
      findall tpl = pre ++ chars "version" :: post →
      walkPath cfg (keyPath (chars "version")) = .error .keyError →
      (∀ p ∈ pre, resolvesToStr cfg p) →
      (∀ p ∈ post, goodPh cfg p) →
      (∀ n, trimL (inputs n) ≠ []) →
      ∃ s1 result c1,
        substLoop cfg inputs (pre ++ chars "version" :: post) tpl c =
          substLoop cfg inputs (chars "version" :: post) s1 c ∧
        substLoop cfg inputs (chars "version" :: post) s1 c =
          substLoop cfg inputs post
            (replaceAll (phPattern (chars "version")) (trimL (inputs c)) s1)
            (c + 1) ∧
        substitute_variables cfg inputs tpl c = (.ok result, c1) ∧
        c + 1 ≤ c1) ∧
    (∀ (cfg : Yaml) (inputs : Nat → Str) (tpl : Str) (c : Nat),
      findall tpl = [chars "version"] →
      walkPath cfg (keyPath (chars "version")) = .error .keyError →
      trimL (inputs c) ≠ [] →
      substitute_variables cfg inputs tpl c =
        (.ok (replaceAll (phPattern (chars "version")) (trimL (inputs c)) tpl),
          c + 1)) ∧
    (∀ (cfg : Yaml) (inputs : Nat → Str) (tpl : Str) (c : Nat)
      (pre post : List Str),
      findall tpl = pre ++ chars "version" :: post →
      walkPath cfg (keyPath (chars "version")) = .error .keyError →
      (∀ p ∈ pre, resolvesToStr cfg p) →
      trimL (inputs c) = [] →
      substitute_variables cfg inputs tpl c = (.failEmptyVersion, c + 1)) ∧
    substitute_variables (Yaml.map []) (fun _ => chars "2.0.0")
      (chars "git tag v\x7b\x7bversion\x7d\x7d") 0 =
      (.ok (chars "git tag v2.0.0"), 1) := by
  refine ⟨?_, ?_, ?_, by decide⟩
  · intro cfg inputs tpl c pre post hf hw hpre hpost hinp
    obtain ⟨s1, he1⟩ :=
      substLoop_skipStr cfg inputs pre (chars "version" :: post) tpl c hpre
    have he2 : substLoop cfg inputs (chars "version" :: post) s1 c =
        substLoop cfg inputs post
          (replaceAll (phPattern (chars "version")) (trimL (inputs c)) s1)
          (c + 1) := by
      simp [substLoop, hw, hinp c]
    obtain ⟨result, c1, he3, hc⟩ := substLoop_allGood cfg inputs hinp post hpost
      (replaceAll (phPattern (chars "version")) (trimL (inputs c)) s1) (c + 1)
    refine ⟨s1, result, c1, he1, he2, ?_, by omega⟩
    rw [substitute_variables, hf, he1, he2, he3]
  · intro cfg inputs tpl c hf hw hne
    rw [substitute_variables, hf]
    simp [substLoop, hw, hne]
  · intro cfg inputs tpl c pre post hf hw hpre hemp
    rw [substitute_variables, hf]
    obtain ⟨s1, he⟩ := substLoop_skipStr cfg inputs pre (chars "version" :: post) tpl c hpre
    rw [he]
    simp [substLoop, hw, hemp]

theorem C5_version_prompt_witness :
    (∃ result c1,
      substitute_variables (Yaml.map [(chars "app", Yaml.str (chars "tool"))])
          (fun _ => chars "2.0.0")
          (chars "\x7b\x7bapp\x7d\x7d tag v\x7b\x7bversion\x7d\x7d") 0 =
        (.ok result, c1) ∧ 0 + 1 ≤ c1) ∧
    substitute_variables (Yaml.map []) (fun _ => chars "2.0.0")
      (chars "git tag v\x7b\x7bversion\x7d\x7d") 0 =
      (.ok (replaceAll (phPattern (chars "version")) (trimL (chars "2.0.0"))
        (chars "git tag v\x7b\x7bversion\x7d\x7d")), 0 + 1) := by
  constructor
  · obtain ⟨s1, result, c1, _, _, he, hc⟩ :=
      C5_version_prompt.1 (Yaml.map [(chars "app", Yaml.str (chars "tool"))])
        (fun _ => chars "2.0.0")
        (chars "\x7b\x7bapp\x7d\x7d tag v\x7b\x7bversion\x7d\x7d") 0
        [chars "app"] [] (by decide) rfl
        (fun p hp => by
          have : p = chars "app" := by simpa using hp
          subst this
          exact ⟨chars "tool", rfl⟩)
        (fun p hp => absurd hp (by simp))
        (by intro n; show trimL (chars "2.0.0") ≠ []; decide)
    exact ⟨result, c1, he, hc⟩
  · exact C5_version_prompt.2.1 (Yaml.map []) (fun _ => chars "2.0.0")
      (chars "git tag v\x7b\x7bversion\x7d\x7d") 0 (by decide) rfl (by decide)

/-- C10: the resolver catches only `KeyError`.  If a placeholder path
traverses a non-mapping value, or resolves to a non-string value, the
function raises an uncaught `TypeError` (there is no reported clean
failure), and planning a workflow containing such a step crashes
instead of aborting cleanly. -/
theorem C10_type_error :
    ∀ (cfg : Yaml) (inputs : Nat → Str) (tpl : Str) (c : Nat)
      (pre post : List Str) (ph : Str),
      findall tpl = pre ++ ph :: post →
      (∀ p ∈ pre, resolvesToStr cfg p) →
      (walkPath cfg (keyPath ph) = .error .typeError ∨
        ∃ y, walkPath cfg (keyPath ph) = .ok y ∧ ∀ v, y ≠ .str v) →
      substitute_variables cfg inputs tpl c = (.typeError, c) ∧
      ∀ d, planSteps cfg inputs [⟨d, some tpl⟩] c = .crashed := by
  intro cfg inputs tpl c pre post ph hf hpre hw
  have hsub : substitute_variables cfg inputs tpl c = (.typeError, c) := by
    rw [substitute_variables, hf]
    obtain ⟨s1, he⟩ := substLoop_skipStr cfg inputs pre (ph :: post) tpl c hpre
    rw [he]
    rcases hw with hw | ⟨y, hy, hns⟩
    · simp [substLoop, hw]
    · cases y with
      | str v => exact absurd rfl (hns v)
      | int n => simp [substLoop, hy]
      | bool b => simp [substLoop, hy]
      | null => simp [substLoop, hy]
      | list xs => simp [substLoop, hy]
      | map m => simp [substLoop, hy]
  refine ⟨hsub, fun d => ?_⟩
  have hrun : runOf (⟨d, some tpl⟩ : StepDef) = tpl := rfl
  simp [planSteps, hrun, hsub]

theorem C10_type_error_witness :
    substitute_variables (Yaml.map [(chars "port", Yaml.int 8080)])
        (fun _ => []) (chars "\x7b\x7bport\x7d\x7d") 0 = (.typeError, 0) ∧
    planSteps (Yaml.map [(chars "port", Yaml.int 8080)]) (fun _ => [])
      [⟨some (chars "t"), some (chars "\x7b\x7bport\x7d\x7d")⟩] 0 = .crashed := by
  have h := C10_type_error (Yaml.map [(chars "port", Yaml.int 8080)])
    (fun _ => []) (chars "\x7b\x7bport\x7d\x7d") 0 [] [] (chars "port")
    (by decide) (fun p hp => absurd hp (by simp))
    (Or.inr ⟨Yaml.int 8080, rfl, fun v h => Yaml.noConfusion h⟩)
  exact ⟨h.1, h.2 (some (chars "t"))⟩

/-! ## C3: planning is all-or-nothing and precedes execution -/

theorem planSteps_full (cfg : Yaml) (inputs : Nat → Str) :
    ∀ (steps : List StepDef) (c : Nat) (plan : List PlannedStep) (c1 : Nat),
      planSteps cfg inputs steps c = .ok plan c1 →
      plan.length = steps.length ∧
      ∀ i (hi : i < steps.length) (hp : i < plan.length),
        (plan.get ⟨i, hp⟩).description = descOf (steps.get ⟨i, hi⟩) ∧
        ∃ ci ci1,
          substitute_variables cfg inputs (runOf (steps.get ⟨i, hi⟩)) ci =
            (.ok (plan.get ⟨i, hp⟩).command, ci1) := by
  intro steps
  induction steps with
  | nil =>
    intro c plan c1 h
    simp only [planSteps, PlanOutcome.ok.injEq] at h
    obtain ⟨rfl, rfl⟩ := h
    exact ⟨rfl, fun i hi _ => absurd hi (by simp)⟩
  | cons s rest ih =>
    intro c plan c1 h
    rcases hs : substitute_variables cfg inputs (runOf s) c with ⟨out, c'⟩
    cases out with
    | ok cmd =>
      cases hr : planSteps cfg inputs rest c' with
      | ok plan' c2 =>
        simp only [planSteps, hs, hr, PlanOutcome.ok.injEq] at h
        obtain ⟨hplan, hc⟩ := h
        subst hplan
        obtain ⟨hlen, hidx⟩ := ih c' plan' c2 hr
        refine ⟨by simp [hlen], ?_⟩
        intro i hi hp
        cases i with
        | zero => exact ⟨rfl, c, c', by simpa using hs⟩
        | succ j =>
          have hj : j < rest.length := by simpa using hi
          have hjp : j < plan'.length := by simpa using hp
          simpa using hidx j hj hjp
      | abort =>
        simp only [planSteps, hs, hr] at h
        exact PlanOutcome.noConfusion h
      | crashed =>
        simp only [planSteps, hs, hr] at h
        exact PlanOutcome.noConfusion h
    | failMissing v =>
      simp only [planSteps, hs] at h
      exact PlanOutcome.noConfusion h
    | failEmptyVersion =>
      simp only [planSteps, hs] at h
      exact PlanOutcome.noConfusion h
    | typeError =>
      simp only [planSteps, hs] at h
      exact PlanOutcome.noConfusion h

/-- C3: planning returns either a plan with exactly one entry per
declared step, in declared order (with each command a successful
substitution of the corresponding declared `run` template), or no plan
at all; and if any command is ever handed to `run_command` during
`execute_workflow`, planning succeeded with a full-length plan —
no step executes before every step is resolved. -/
theorem C3_planning :
    (∀ (cfg : Yaml) (inputs : Nat → Str) (steps : List StepDef) (c : Nat)
      (plan : List PlannedStep) (c1 : Nat),
      planSteps cfg inputs steps c = .ok plan c1 →
      plan.length = steps.length ∧
      ∀ i (hi : i < steps.length) (hp : i < plan.length),
        (plan.get ⟨i, hp⟩).description = descOf (steps.get ⟨i, hi⟩)) ∧
    (∀ (cfg : Config) (br name : Str) (inputs : Nat → Str) (env : Nat → Bool)
      (c : Nat),
      (∃ s, Event.runCmd s ∈ (execute_workflow cfg br name inputs env c).1) →
      ∃ steps plan c1, assocL cfg.workflows name = some steps ∧
        planSteps cfg.tree inputs steps c = .ok plan c1 ∧
        plan.length = steps.length) := by
  constructor
  · intro cfg inputs steps c plan c1 h
    obtain ⟨hlen, hidx⟩ := planSteps_full cfg inputs steps c plan c1 h
    exact ⟨hlen, fun i hi hp => (hidx i hi hp).1⟩
  · rintro cfg br name inputs env c ⟨s, hmem⟩
    rcases hwf : assocL cfg.workflows name with _ | steps
    · simp only [execute_workflow, hwf] at hmem
      simp at hmem
    · by_cases hemp : steps = []
      · simp only [execute_workflow, hwf, if_pos hemp] at hmem
        simp at hmem
      · cases hps : planSteps cfg.tree inputs steps c with
        | ok plan c1 =>
          exact ⟨steps, plan, c1, rfl, hps,
            (planSteps_full cfg.tree inputs steps c plan c1 hps).1⟩
        | abort =>
          simp only [execute_workflow, hwf, if_neg hemp, hps] at hmem
          simp at hmem
        | crashed =>
          simp only [execute_workflow, hwf, if_neg hemp, hps] at hmem
          simp at hmem

theorem C3_planning_witness :
    ([⟨chars "s1", chars "git status"⟩] : List PlannedStep).length =
      ([⟨some (chars "s1"), some (chars "git status")⟩] : List StepDef).length :=
  (C3_planning.1 (Yaml.map []) (fun _ => [])
    [⟨some (chars "s1"), some (chars "git status")⟩] 0
    [⟨chars "s1", chars "git status"⟩] 0 (by decide)).1

/-! ## C8: process exit status -/

/-- C8 counterexample: with a loaded configuration, a determined
branch, one defined workflow and the out-of-range selection `9`, the
claim demands a non-zero exit status; but `main` only prints
`Invalid choice.` and returns normally, so the process exits 0. -/
theorem C8_exit_codes_cex :
    (mainRun
        (some ⟨.map [], [(chars "deploy", [⟨none, some (chars "true")⟩])], []⟩)
        (some (chars "main")) (fun _ => chars "9") (fun _ => true)) =
      (0, [Event.invalidChoice]) := by decide

/-- C8 amended: the process exits non-zero when the configuration
fails to load, when no branch can be determined, or when no workflows
are defined; after a workflow run that raised no exception it exits 0
even when individual steps failed; and — contrary to the claim — an
invalid selection (non-numeric input or an out-of-range number) also
exits 0, because `main` merely reports it and returns. -/
theorem C8_exit_codes :
    (∀ (brO : Option Str) (inputs : Nat → Str) (env : Nat → Bool),
      (mainRun none brO inputs env).1 = 1) ∧
    (∀ (cfg : Config) (inputs : Nat → Str) (env : Nat → Bool),
      (mainRun (some cfg) none inputs env).1 = 1) ∧
    (∀ (cfg : Config) (br : Str) (inputs : Nat → Str) (env : Nat → Bool),
      cfg.workflows = [] → (mainRun (some cfg) (some br) inputs env).1 = 1) ∧
    (∀ (cfg : Config) (br : Str) (inputs : Nat → Str) (env : Nat → Bool)
      (v : Int) (wfName : Str),
      pyParseInt (inputs 0) = some v → ¬ v - 1 < 0 →
      (cfg.workflows.map Prod.fst).get? (v - 1).toNat = some wfName →
      (execute_workflow cfg br wfName inputs env 1).2 = false →
      (mainRun (some cfg) (some br) inputs env).1 = 0) ∧
    (∀ (cfg : Config) (br : Str) (inputs : Nat → Str) (env : Nat → Bool),
      cfg.workflows ≠ [] →
      (pyParseInt (inputs 0) = none ∨
        ∃ v, pyParseInt (inputs 0) = some v ∧
          (v - 1 < 0 ∨ (cfg.workflows.map Prod.fst).get? (v - 1).toNat = none)) →
      (mainRun (some cfg) (some br) inputs env).1 = 0) := by
  refine ⟨fun _ _ _ => rfl, fun _ _ _ => rfl, ?_, ?_, ?_⟩
  · intro cfg br inputs env h
    simp [mainRun, h]
  · intro cfg br inputs env v wfName hv hneg hget hraise
    have hne : cfg.workflows.map Prod.fst ≠ [] := by
      intro he
      rw [he] at hget
      simp at hget
    rcases hex : execute_workflow cfg br wfName inputs env 1 with ⟨evs, raised⟩
    rw [hex] at hraise
    simp only at hraise
    subst hraise
    simp only [mainRun, if_neg hne, hv, if_neg hneg, hget, hex]
    rfl
  · intro cfg br inputs env hne hbad
    have hne' : cfg.workflows.map Prod.fst ≠ [] := by
      simpa using hne
    rcases hbad with hnone | ⟨v, hv, hout | hout⟩
    · simp only [mainRun, if_neg hne', hnone]
    · simp only [mainRun, if_neg hne', hv, if_pos hout]
    · have hneg : ¬ v - 1 < 0 := by
        intro hc
        rw [(by omega : (v - 1).toNat = 0)] at hout
        rcases hl : cfg.workflows.map Prod.fst with _ | ⟨a, l⟩
        · exact hne' hl
        · rw [hl] at hout; simp at hout
      simp only [mainRun, if_neg hne', hv, if_neg hneg, hout]

theorem C8_exit_codes_witness :
    (mainRun
        (some ⟨.map [], [(chars "deploy", [⟨none, some (chars "git push")⟩])], []⟩)
        (some (chars "main"))
        (fun n => if n = 0 then chars "1" else chars "y")
        (fun _ => false)).1 = 0 :=
  C8_exit_codes.2.2.2.1
    ⟨.map [], [(chars "deploy", [⟨none, some (chars "git push")⟩])], []⟩
    (chars "main") (fun n => if n = 0 then chars "1" else chars "y")
    (fun _ => false) 1 (chars "deploy") (by decide) (by decide) (by decide)
    (by decide)

/-! ## C9: verbatim substitution.  Low-level lemmas about
`replaceAll`. -/

theorem replaceFuel_congr (p : Char) (ps rep : Str) :
    ∀ (f : Nat) (s : Str) (g : Nat), s.length ≤ f → s.length ≤ g →
      replaceFuel p ps rep f s = replaceFuel p ps rep g s := by
  intro f
  induction f with
  | zero =>
    intro s g hf hg
    have hs : s = [] := List.length_eq_zero.mp (Nat.le_zero.mp hf)
    subst hs
    cases g <;> rfl
  | succ f ih =>
    intro s g hf hg
    cases s with
    | nil => cases g <;> rfl
    | cons c rest =>
      cases g with
      | zero => simp at hg
      | succ g' =>
        simp only [replaceFuel]
        simp only [List.length_cons] at hf hg
        by_cases hsw : startsWithL (p :: ps) (c :: rest) = true
        · rw [if_pos hsw, if_pos hsw]
          congr 1
          apply ih
          · simp only [List.length_drop]; omega
          · simp only [List.length_drop]; omega
        · rw [if_neg hsw, if_neg hsw]
          congr 1
          apply ih <;> omega

theorem replaceAll_cons (p : Char) (ps rep : Str) (c : Char) (rest : Str) :
    replaceAll (p :: ps) rep (c :: rest) =
      if startsWithL (p :: ps) (c :: rest) = true then
        rep ++ replaceAll (p :: ps) rep (rest.drop ps.length)
      else c :: replaceAll (p :: ps) rep rest := by
  show replaceFuel p ps rep (c :: rest).length (c :: rest) = _
  rw [List.length_cons]
  simp only [replaceFuel]
  by_cases hsw : startsWithL (p :: ps) (c :: rest) = true
  · rw [if_pos hsw, if_pos hsw]
    congr 1
    apply replaceFuel_congr
    · simp only [List.length_drop]; omega
    · exact le_refl _
  · rw [if_neg hsw, if_neg hsw]
    rfl

theorem replaceAll_skip_cons {p : Char} (ps rep : Str) {c : Char} (hc : c ≠ p)
    (s : Str) :
    replaceAll (p :: ps) rep (c :: s) = c :: replaceAll (p :: ps) rep s := by
  have hpc : (p == c) = false := beq_eq_false_iff_ne.mpr (Ne.symm hc)
  have hsw : startsWithL (p :: ps) (c :: s) = false := by
    simp [startsWithL, hpc]
  rw [replaceAll_cons]
  simp [hsw]

theorem replaceAll_skip {p : Char} (ps rep : Str) :
    ∀ (l s : Str), (∀ c ∈ l, c ≠ p) →
      replaceAll (p :: ps) rep (l ++ s) = l ++ replaceAll (p :: ps) rep s := by
  intro l
  induction l with
  | nil => intro s _; rfl
  | cons c l' ih =>
    intro s h
    simp only [List.cons_append]
    rw [replaceAll_skip_cons ps rep (h c (List.mem_cons_self c l')) (l' ++ s),
      ih s fun x hx => h x (List.mem_cons_of_mem c hx)]

theorem startsWithL_append_self : ∀ (l t : Str), startsWithL l (l ++ t) = true
  | [], _ => rfl
  | c :: l, t => by simp [startsWithL, startsWithL_append_self l t]

theorem drop_len_append : ∀ (a b : Str), (a ++ b).drop a.length = b
  | [], _ => rfl
  | c :: a, b => by
    simp only [List.cons_append, List.length_cons, List.drop_succ_cons]
    exact drop_len_append a b

theorem replaceAll_head (p : Char) (ps rep t : Str) :
    replaceAll (p :: ps) rep ((p :: ps) ++ t) =
      rep ++ replaceAll (p :: ps) rep t := by
  have e : (p :: ps) ++ t = p :: (ps ++ t) := rfl
  rw [e, replaceAll_cons,
    if_pos (show startsWithL (p :: ps) (p :: (ps ++ t)) = true from
      startsWithL_append_self (p :: ps) t),
    drop_len_append ps t]

theorem startsWithL_tail_ne :
    ∀ (q pp r : Str), (∀ c ∈ q, c ≠ '}') → (∀ c ∈ pp, c ≠ '}') → q ≠ pp →
      startsWithL (q ++ ['}', '}']) (pp ++ '}' :: '}' :: r) = false := by
  intro q
  induction q with
  | nil =>
    intro pp r _ hp hne
    cases pp with
    | nil => exact absurd rfl hne
    | cons d pp' =>
      have hd : ('}' == d) = false :=
        beq_eq_false_iff_ne.mpr (Ne.symm (hp d (List.mem_cons_self d pp')))
      simp [startsWithL, hd]
  | cons c q' ih =>
    intro pp r hq hp hne
    cases pp with
    | nil =>
      have hc : (c == '}') = false :=
        beq_eq_false_iff_ne.mpr (hq c (List.mem_cons_self c q'))
      simp [startsWithL, hc]
    | cons d pp' =>
      by_cases hcd : c = d
      · subst hcd
        have hne' : q' ≠ pp' := fun h => hne (by rw [h])
        have hrec := ih pp' r (fun x hx => hq x (List.mem_cons_of_mem c hx))
          (fun x hx => hp x (List.mem_cons_of_mem c hx)) hne'
        simp [startsWithL, hrec]
      · have hc : (c == d) = false := beq_eq_false_iff_ne.mpr hcd
        simp [startsWithL, hc]

theorem replaceAll_match_pattern (q rep s : Str) :
    replaceAll (phPattern q) rep (phPattern q ++ s) =
      rep ++ replaceAll (phPattern q) rep s :=
  replaceAll_head '{' ('{' :: (q ++ ['}', '}'])) rep s

theorem replaceAll_skip_pattern {q pp : Str} (rep : Str)
    (hq : ∀ c ∈ q, c ≠ '{' ∧ c ≠ '}') (hp : ∀ c ∈ pp, c ≠ '{' ∧ c ≠ '}')
    (hne : pp ≠ q) (s : Str) :
    replaceAll (phPattern q) rep (phPattern pp ++ s) =
      phPattern pp ++ replaceAll (phPattern q) rep s := by
  have e0 : phPattern q = '{' :: ('{' :: (q ++ ['}', '}'])) := rfl
  have e1 : phPattern pp ++ s = '{' :: '{' :: (pp ++ '}' :: '}' :: s) := by
    simp [phPattern]
  have htail := startsWithL_tail_ne q pp s (fun c hc => (hq c hc).2)
    (fun c hc => (hp c hc).2) (Ne.symm hne)
  have hcond0 : startsWithL ('{' :: ('{' :: (q ++ ['}', '}'])))
      ('{' :: ('{' :: (pp ++ '}' :: '}' :: s))) = false := by
    simp [startsWithL, htail]
  have hcond1 : startsWithL ('{' :: ('{' :: (q ++ ['}', '}'])))
      ('{' :: (pp ++ '}' :: '}' :: s)) = false := by
    cases pp with
    | nil => simp [startsWithL]
    | cons d pp' =>
      have hd : ('{' == d) = false :=
        beq_eq_false_iff_ne.mpr (Ne.symm (hp d (List.mem_cons_self d pp')).1)
      simp [startsWithL, hd]
  rw [e1, e0, replaceAll_cons]
  rw [if_neg (by simp [hcond0])]
  rw [replaceAll_cons, if_neg (by simp [hcond1])]
  rw [replaceAll_skip ('{' :: (q ++ ['}', '}'])) rep pp ('}' :: '}' :: s)
    (fun c hc => (hp c hc).1)]
  rw [replaceAll_skip_cons ('{' :: (q ++ ['}', '}'])) rep
    (by decide : ('}' : Char) ≠ '{') ('}' :: s)]
  rw [replaceAll_skip_cons ('{' :: (q ++ ['}', '}'])) rep
    (by decide : ('}' : Char) ≠ '{') s]
  simp [phPattern]

/-! ## C9: chunk rendering and the scan/render identity -/

/-- Brace-free character (may appear in a literal fragment or a value
without being able to create or destroy a placeholder pattern). -/
def bfChar (c : Char) : Bool := !(c == '{' || c == '}')

/-- Brace-free string. -/
def bfStr (s : Str) : Bool := s.all bfChar

/-- Brace-free chunk: a brace-free literal character, or a placeholder
whose inner text is brace-free. -/
def chunkBF : Chunk → Bool
  | .ch c => bfChar c
  | .ph p => bfStr p

theorem bfChar_ne {c : Char} (h : bfChar c = true) : c ≠ '{' ∧ c ≠ '}' := by
  simp [bfChar] at h
  exact h

theorem bfStr_ne {s : Str} (h : bfStr s = true) :
    ∀ c ∈ s, c ≠ '{' ∧ c ≠ '}' := by
  intro c hc
  exact bfChar_ne (by simpa using List.all_eq_true.mp h c hc)

/-- Render a chunk list, mapping each placeholder text through `f` and
keeping literal characters. -/
def renderWith (f : Str → Str) : List Chunk → Str
  | [] => []
  | .ch c :: rest => c :: renderWith f rest
  | .ph p :: rest => f p ++ renderWith f rest

/-- The string value of a resolvable placeholder (only used under the
hypothesis that the walk ends at a string). -/
def lookupStr (cfg : Yaml) (p : Str) : Str :=
  match walkPath cfg (keyPath p) with
  | .ok (.str v) => v
  | _ => []

/-- Modelled from the claim wording for C9: the template with each
placeholder occurrence replaced verbatim by its looked-up value at the
placeholder's former position and every other character unchanged. -/
def specSubstituted (cfg : Yaml) (tpl : Str) : Str :=
  renderWith (lookupStr cfg) (scanA none tpl)

/-- Placeholders in `S` are already substituted by their value; the
others still stand as literal `{{p}}` text. -/
def subF (val : Str → Str) (S : List Str) (p : Str) : Str :=
  if p ∈ S then val p else phPattern p

theorem renderWith_map_ch (f : Str → Str) :
    ∀ (l : Str), renderWith f (l.map Chunk.ch) = l
  | [] => rfl
  | c :: l => by simp only [List.map_cons, renderWith, renderWith_map_ch f l]

theorem renderWith_append (f : Str → Str) :
    ∀ (a b : List Chunk),
      renderWith f (a ++ b) = renderWith f a ++ renderWith f b := by
  intro a
  induction a with
  | nil => intro b; rfl
  | cons ch a ih =>
    intro b
    cases ch with
    | ch c => simp [renderWith, ih]
    | ph p => simp [renderWith, ih]

theorem renderWith_congr {f g : Str → Str} :
    ∀ (cs : List Chunk), (∀ p, Chunk.ph p ∈ cs → f p = g p) →
      renderWith f cs = renderWith g cs := by
  intro cs
  induction cs with
  | nil => intro _; rfl
  | cons ch rest ih =>
    intro h
    cases ch with
    | ch c =>
      simp only [renderWith, ih fun p hp => h p (List.mem_cons_of_mem _ hp)]
    | ph p =>
      simp only [renderWith, ih fun p1 hp => h p1 (List.mem_cons_of_mem _ hp),
        h p (List.mem_cons_self _ _)]

theorem scanA_render (n : Nat) :
    ∀ (s : Str), s.length ≤ n → ∀ (mode : Option Str),
      renderWith phPattern (scanA mode s) =
        (match mode with
          | none => []
          | some acc => '{' :: '{' :: acc.reverse) ++ s := by
  induction n with
  | zero =>
    intro s hs mode
    have : s = [] := List.length_eq_zero.mp (Nat.le_zero.mp hs)
    subst this
    cases mode with
    | none => rfl
    | some acc =>
      rw [show scanA (some acc) [] = ('{' :: '{' :: acc.reverse).map Chunk.ch
        from rfl, renderWith_map_ch]
      simp
  | succ n ih =>
    intro s hs mode
    cases mode with
    | none =>
      match s with
      | [] => rfl
      | [c] => rfl
      | c :: c2 :: rest =>
        simp only [List.length_cons] at hs
        by_cases h : c = '{' ∧ c2 = '{'
        · simp only [scanA, if_pos h]
          rw [ih rest (by omega) (some [])]
          simp [h.1, h.2]
        · simp only [scanA, if_neg h, renderWith]
          rw [ih (c2 :: rest) (by simp only [List.length_cons]; omega) none]
          rfl
    | some acc =>
      match s with
      | [] =>
        rw [show scanA (some acc) [] = ('{' :: '{' :: acc.reverse).map Chunk.ch
          from rfl, renderWith_map_ch]
        simp
      | [c] =>
        by_cases h : c = '\n'
        · simp only [scanA, if_pos h]
          rw [renderWith_map_ch]
          simp [h]
        · simp only [scanA, if_neg h]
          rw [renderWith_map_ch]
          simp
      | c :: c2 :: rest =>
        simp only [List.length_cons] at hs
        by_cases h : c = '}' ∧ c2 = '}'
        · simp only [scanA, if_pos h, renderWith]
          rw [ih rest (by omega) none]
          simp [phPattern, h.1, h.2]
        · by_cases h2 : c = '\n'
          · simp only [scanA, if_neg h, if_pos h2, renderWith_append]
            rw [renderWith_map_ch,
              ih (c2 :: rest) (by simp only [List.length_cons]; omega) none]
            simp [h2]
          · simp only [scanA, if_neg h, if_neg h2]
            rw [ih (c2 :: rest) (by simp only [List.length_cons]; omega)
              (some (c :: acc))]
            simp

/-- A template is exactly the rendering of its scan with each
placeholder standing as its literal text. -/
theorem scanA_render_id (s : Str) :
    renderWith phPattern (scanA none s) = s :=
  scanA_render s.length s (le_refl _) none

theorem phNames_mem {p : Str} :
    ∀ {cs : List Chunk}, p ∈ phNames cs → Chunk.ph p ∈ cs := by
  intro cs
  induction cs with
  | nil => intro h; simp [phNames] at h
  | cons ch rest ih =>
    intro h
    cases ch with
    | ch c =>
      simp only [phNames, List.filterMap_cons] at h
      exact List.mem_cons_of_mem _ (ih h)
    | ph q =>
      simp only [phNames, List.filterMap_cons] at h
      rcases List.mem_cons.mp h with rfl | h2
      · exact List.mem_cons_self _ _
      · exact List.mem_cons_of_mem _ (ih h2)

theorem phNames_mem_of {p : Str} {cs : List Chunk} (h : Chunk.ph p ∈ cs) :
    p ∈ phNames cs := by
  simp only [phNames, List.mem_filterMap]
  exact ⟨.ph p, h, rfl⟩

theorem replaceAll_ph_skip_cons {q : Str} (rep : Str) {c : Char}
    (hc : c ≠ '{') (s : Str) :
    replaceAll (phPattern q) rep (c :: s) =
      c :: replaceAll (phPattern q) rep s :=
  replaceAll_skip_cons ('{' :: (q ++ ['}', '}'])) rep hc s

theorem replaceAll_ph_skip {q : Str} (rep : Str) (l s : Str)
    (h : ∀ c ∈ l, c ≠ '{') :
    replaceAll (phPattern q) rep (l ++ s) =
      l ++ replaceAll (phPattern q) rep s :=
  replaceAll_skip ('{' :: (q ++ ['}', '}'])) rep l s h

theorem replaceAll_renderWith (val : Str → Str) (q : Str)
    (hq : ∀ c ∈ q, c ≠ '{' ∧ c ≠ '}') :
    ∀ (cs : List Chunk) (S : List Str),
      (∀ ch ∈ cs, chunkBF ch = true) →
      (∀ p, Chunk.ph p ∈ cs → bfStr (val p) = true) →
      replaceAll (phPattern q) (val q) (renderWith (subF val S) cs) =
        renderWith (subF val (q :: S)) cs := by
  intro cs
  induction cs with
  | nil => intro S _ _; rfl
  | cons ch rest ih =>
    intro S hbf hval
    have hbf' : ∀ x ∈ rest, chunkBF x = true :=
      fun x hx => hbf x (List.mem_cons_of_mem _ hx)
    have hval' : ∀ p, Chunk.ph p ∈ rest → bfStr (val p) = true :=
      fun p hp => hval p (List.mem_cons_of_mem _ hp)
    cases ch with
    | ch c =>
      have hc := bfChar_ne (show bfChar c = true from
        hbf _ (List.mem_cons_self _ _))
      simp only [renderWith]
      rw [replaceAll_ph_skip_cons (val q) hc.1, ih S hbf' hval']
    | ph p =>
      have hbp : ∀ x ∈ p, x ≠ '{' ∧ x ≠ '}' :=
        bfStr_ne (show bfStr p = true from hbf _ (List.mem_cons_self _ _))
      simp only [renderWith]
      by_cases hpS : p ∈ S
      · rw [show subF val S p = val p from if_pos hpS,
          show subF val (q :: S) p = val p from
            if_pos (List.mem_cons_of_mem _ hpS)]
        rw [replaceAll_ph_skip (val q) (val p) _
          (fun x hx => (bfStr_ne (hval p (List.mem_cons_self _ _)) x hx).1)]
        rw [ih S hbf' hval']
      · rw [show subF val S p = phPattern p from if_neg hpS]
        by_cases hpq : p = q
        · subst hpq
          rw [replaceAll_match_pattern, ih S hbf' hval',
            show subF val (p :: S) p = val p from
              if_pos (List.mem_cons_self _ _)]
        · rw [replaceAll_skip_pattern (val q) hq hbp hpq _, ih S hbf' hval',
            show subF val (q :: S) p = phPattern p from
              if_neg (by simp [hpq, hpS])]

theorem substLoop_chunks (cfg : Yaml) (inputs : Nat → Str) (c : Nat)
    (cs : List Chunk)
    (hcs : ∀ ch ∈ cs, chunkBF ch = true)
    (hres : ∀ p, Chunk.ph p ∈ cs →
      walkPath cfg (keyPath p) = .ok (.str (lookupStr cfg p)) ∧
        bfStr (lookupStr cfg p) = true) :
    ∀ (ps S : List Str), (∀ p ∈ ps, Chunk.ph p ∈ cs) →
      substLoop cfg inputs ps (renderWith (subF (lookupStr cfg) S) cs) c =
        (.ok (renderWith (subF (lookupStr cfg) (ps ++ S)) cs), c) := by
  intro ps
  induction ps with
  | nil => intro S _; rfl
  | cons p ps' ih =>
    intro S hmem
    have hphp : Chunk.ph p ∈ cs := hmem p (List.mem_cons_self _ _)
    obtain ⟨hwalk, _⟩ := hres p hphp
    have hq : ∀ x ∈ p, x ≠ '{' ∧ x ≠ '}' :=
      bfStr_ne (show bfStr p = true from hcs _ hphp)
    simp only [substLoop, hwalk]
    rw [replaceAll_renderWith (lookupStr cfg) p hq cs S hcs
      (fun p1 hp1 => (hres p1 hp1).2)]
    rw [ih (p :: S) fun x hx => hmem x (List.mem_cons_of_mem _ hx)]
    have he : renderWith (subF (lookupStr cfg) (ps' ++ p :: S)) cs =
        renderWith (subF (lookupStr cfg) (p :: ps' ++ S)) cs := by
      apply renderWith_congr
      intro p1 _
      simp only [subF]
      by_cases h1 : p1 ∈ ps' ++ p :: S
      · rw [if_pos h1, if_pos (by simp at h1 ⊢; tauto)]
      · rw [if_neg h1, if_neg (by simp at h1 ⊢; tauto)]
    rw [he]

/-- C9 counterexample: both placeholders of `{{a}} {{b}}` resolve to
strings, so the claim demands the verbatim substitution
`{{b}} X` (value of `a` inserted at the former position of `{{a}}`,
every other character unchanged); but because the code replaces with
`str.replace` over the whole evolving string, the `{{b}}` text
inserted for `a` is itself replaced in the second iteration, giving
`X X`. -/
theorem C9_verbatim_substitution_cex :
    walkPath (Yaml.map [(chars "a", Yaml.str (chars "\x7b\x7bb\x7d\x7d")),
        (chars "b", Yaml.str (chars "X"))]) (keyPath (chars "a")) =
      .ok (.str (chars "\x7b\x7bb\x7d\x7d")) ∧
    walkPath (Yaml.map [(chars "a", Yaml.str (chars "\x7b\x7bb\x7d\x7d")),
        (chars "b", Yaml.str (chars "X"))]) (keyPath (chars "b")) =
      .ok (.str (chars "X")) ∧
    findall (chars "\x7b\x7ba\x7d\x7d \x7b\x7bb\x7d\x7d") =
      [chars "a", chars "b"] ∧
    substitute_variables
        (Yaml.map [(chars "a", Yaml.str (chars "\x7b\x7bb\x7d\x7d")),
          (chars "b", Yaml.str (chars "X"))])
        (fun _ => []) (chars "\x7b\x7ba\x7d\x7d \x7b\x7bb\x7d\x7d") 0 =
      (.ok (chars "X X"), 0) ∧
    specSubstituted
        (Yaml.map [(chars "a", Yaml.str (chars "\x7b\x7bb\x7d\x7d")),
          (chars "b", Yaml.str (chars "X"))])
        (chars "\x7b\x7ba\x7d\x7d \x7b\x7bb\x7d\x7d") =
      chars "\x7b\x7bb\x7d\x7d X" ∧
    chars "X X" ≠ chars "\x7b\x7bb\x7d\x7d X" :=
  ⟨rfl, rfl, by decide, by decide, by decide, by decide⟩

/-- C9 amended: for a template whose literal text and placeholder names
are brace-free and whose placeholders all resolve to brace-free string
values, resolution succeeds (without prompting) and the result is the
verbatim substitution: each placeholder occurrence replaced by its
looked-up value at its former position, every other character
unchanged, distinct placeholders resolved independently, left to
right, non-overlapping. -/
theorem C9_verbatim_substitution :
    ∀ (cfg : Yaml) (inputs : Nat → Str) (tpl : Str) (c : Nat),
      (∀ ch ∈ scanA none tpl, chunkBF ch = true) →
      (∀ p ∈ findall tpl,
        walkPath cfg (keyPath p) = .ok (.str (lookupStr cfg p)) ∧
          bfStr (lookupStr cfg p) = true) →
      substitute_variables cfg inputs tpl c =
        (.ok (specSubstituted cfg tpl), c) := by
  intro cfg inputs tpl c hch hres
  have hres' : ∀ p, Chunk.ph p ∈ scanA none tpl →
      walkPath cfg (keyPath p) = .ok (.str (lookupStr cfg p)) ∧
        bfStr (lookupStr cfg p) = true :=
    fun p hp => hres p (phNames_mem_of hp)
  have hstart : renderWith (subF (lookupStr cfg) []) (scanA none tpl) = tpl := by
    have he := renderWith_congr (f := subF (lookupStr cfg) [])
      (g := phPattern) (scanA none tpl) (fun p _ => by simp [subF])
    rw [he, scanA_render_id]
  have hmain := substLoop_chunks cfg inputs c (scanA none tpl) hch hres'
    (findall tpl) [] (fun p hp => phNames_mem hp)
  rw [hstart] at hmain
  have hfinal : renderWith (subF (lookupStr cfg) (findall tpl ++ []))
      (scanA none tpl) = renderWith (lookupStr cfg) (scanA none tpl) := by
    apply renderWith_congr
    intro p hp
    simp [subF, phNames_mem_of hp, findall]
  rw [substitute_variables, hmain, hfinal]
  rfl

theorem C9_verbatim_substitution_witness :
    substitute_variables
        (Yaml.map [(chars "branches",
          Yaml.map [(chars "dev", Yaml.str (chars "develop"))])])
        (fun _ => []) (chars "git push origin \x7b\x7bbranches.dev\x7d\x7d") 0 =
      (.ok (specSubstituted
        (Yaml.map [(chars "branches",
          Yaml.map [(chars "dev", Yaml.str (chars "develop"))])])
        (chars "git push origin \x7b\x7bbranches.dev\x7d\x7d")), 0) ∧
    specSubstituted
        (Yaml.map [(chars "branches",
          Yaml.map [(chars "dev", Yaml.str (chars "develop"))])])
        (chars "git push origin \x7b\x7bbranches.dev\x7d\x7d") =
      chars "git push origin develop" := by
  constructor
  · apply C9_verbatim_substitution
    · decide
    · intro p hp
      have he : findall (chars "git push origin \x7b\x7bbranches.dev\x7d\x7d") =
          [chars "branches.dev"] := by decide
      rw [he] at hp
      have : p = chars "branches.dev" := List.mem_singleton.mp hp
      subst this
      exact ⟨rfl, by decide⟩
  · decide
